import Mathlib

/-!
Verification development for the mtsv_tools metagenomic binner.

The definitions below shallowly embed the Rust sources of the repository:

* `src/index.rs` — `Bin`, `SeedHit::candidate_indices`, the seed-harvest loop of
  `MGIndex::matching_tax_ids`, its phase-3 selection loop, and `MGIndex::new`;
* `src/binner.rs` — `write_assignments` (default output mode) and the resume wiring
  of `src/bin/mtsv-binner.rs`;
* `src/collapse.rs` — `filter_taxid_hits`, `filter_taxid_gi_hits` and the per-read
  reduction of `collapse_sorted_files`;
* `src/io.rs` / `src/builder.rs` — the on-disk serialization of a built index.

Machine integers (`usize`, `u32`) are modelled as `Nat` with explicit wrap-around
(`% 2^64`) exactly where the Rust release build would wrap, and with saturating
operations where the source uses them.
-/

namespace Mtsv

/-- Word size of the target: `usize` is 64 bits wide. -/
def WSIZE : Nat := 2 ^ 64

/-- Wrapping (release-mode) subtraction on `usize` values: `a - b` computed modulo
`2^64`; callers supply `a`, `b` already reduced below `2^64`. -/
def sub64 (a b : Nat) : Nat := (a + WSIZE - b % WSIZE) % WSIZE

/-- Embeds `Bin` from `src/index.rs` (field `end` is called `stop` because `end` is a
Lean keyword). -/
structure Bin where
  gi : Nat
  tax_id : Nat
  start : Nat
  stop : Nat
  deriving Repr, DecidableEq

/-- Embeds the `cand_start` computation of `SeedHit::candidate_indices`
(`src/index.rs`): `site - start_offset` is evaluated first (wrapping in release
builds), then compared with `bin.start`, and the second disjunct of the guard
catches the underflowing case. -/
def candStart (bin : Bin) (reference_offset query_offset edit_distance : Nat) : Nat :=
  let site := reference_offset
  let start_offset := query_offset + edit_distance
  if sub64 site start_offset < bin.start ∨ start_offset > site then bin.start
  else sub64 site start_offset

/-- Embeds `SeedHit::candidate_indices` from `src/index.rs`; every `usize`
subtraction is modelled with `sub64`. -/
def candidate_indices (bin : Bin) (reference_offset query_offset read_len edit_distance : Nat) :
    Option (Nat × Nat) :=
  let site := reference_offset
  let seed_offset := query_offset
  let cand_start := candStart bin reference_offset query_offset edit_distance
  let cand_end0 := site + sub64 read_len seed_offset + edit_distance
  let cand_end := if cand_end0 > bin.stop then bin.stop else cand_end0
  if cand_start > cand_end ∨ cand_start < bin.start ∨ cand_end > bin.stop ∨
      sub64 cand_end cand_start < sub64 read_len edit_distance then none
  else some (cand_start, cand_end)

theorem sub64_of_le {a b : Nat} (hb : b ≤ a) (ha : a < WSIZE) : sub64 a b = a - b := by
  have hbw : b < WSIZE := lt_of_le_of_lt hb ha
  unfold sub64
  rw [Nat.mod_eq_of_lt hbw]
  have h1 : a + WSIZE - b = (a - b) + WSIZE := by omega
  rw [h1, Nat.add_mod_right]
  exact Nat.mod_eq_of_lt (by omega)

theorem sub64_of_gt {a b : Nat} (hb : a < b) (hbw : b < WSIZE) :
    sub64 a b = a + WSIZE - b := by
  unfold sub64
  rw [Nat.mod_eq_of_lt hbw]
  exact Nat.mod_eq_of_lt (by omega)

/-- Claim C5: for every seed hit at reference position `r` with query offset `q`, every
bin `b` and edit tolerance `e`, the candidate start computed by
`SeedHit::candidate_indices` equals `max (b.start) (r - (q + e))` (truncated
subtraction): whenever `q + e > r` or `r - (q + e) < b.start` it falls back to
`b.start`, the wrapped intermediate value is never used as the start (the start never
exceeds `max b.start r`), and any interval returned by `candidate_indices` carries
exactly this start. -/
theorem candidate_start_guarded (bin : Bin) (r q e : Nat)
    (hr : r < WSIZE) (hqe : q + e < WSIZE) :
    candStart bin r q e = max bin.start (r - (q + e)) ∧
    (q + e > r → candStart bin r q e = bin.start) ∧
    (r - (q + e) < bin.start → candStart bin r q e = bin.start) ∧
    candStart bin r q e ≤ max bin.start r ∧
    (∀ L s t, candidate_indices bin r q L e = some (s, t) →
      s = max bin.start (r - (q + e))) := by
  have hcs : candStart bin r q e =
      if sub64 r (q + e) < bin.start ∨ q + e > r then bin.start else sub64 r (q + e) := rfl
  have hmain : candStart bin r q e = max bin.start (r - (q + e)) := by
    rw [hcs]
    by_cases hle : q + e ≤ r
    · rw [sub64_of_le hle hr]
      by_cases hlt : r - (q + e) < bin.start
      · rw [if_pos (Or.inl hlt)]
        omega
      · rw [if_neg (by omega)]
        omega
    · have hgt : r < q + e := by omega
      rw [sub64_of_gt hgt hqe]
      rw [if_pos (Or.inr hgt)]
      omega
  refine ⟨hmain, ?_, ?_, ?_, ?_⟩
  · intro h
    rw [hmain]
    omega
  · intro h
    rw [hmain]
    omega
  · rw [hmain]
    omega
  · intro L s t hsome
    simp only [candidate_indices] at hsome
    split at hsome
    · split at hsome
      · exact Option.noConfusion hsome
      · have hs : candStart bin r q e = s := congrArg Prod.fst (Option.some.inj hsome)
        rw [← hs]
        exact hmain
    · split at hsome
      · exact Option.noConfusion hsome
      · have hs : candStart bin r q e = s := congrArg Prod.fst (Option.some.inj hsome)
        rw [← hs]
        exact hmain

/-- Closed instantiation of `candidate_start_guarded`: at `bin.start = 100`,
`r = 90`, `q = 1`, `e = 3` the subtraction would not underflow but the window start
still falls back to the bin start. -/
theorem candidate_start_guarded_witness :
    candStart ⟨0, 0, 100, 200⟩ 90 1 3 = max 100 (90 - (1 + 3)) ∧
    candStart ⟨7, 7, 100, 200⟩ 2 5 10 = 100 := by
  constructor
  · exact (candidate_start_guarded ⟨0, 0, 100, 200⟩ 90 1 3 (by norm_num [WSIZE])
      (by norm_num [WSIZE])).1
  · exact (candidate_start_guarded ⟨7, 7, 100, 200⟩ 2 5 10 (by norm_num [WSIZE])
      (by norm_num [WSIZE])).2.1 (by norm_num)

/-- Models `bio::data_structures::fmindex::BackwardSearchResult` (rust-bio) as consumed
by `MGIndex::matching_tax_ids`: a complete match interval, a longest-suffix interval
(constructor `Part` embeds the source's partial-result variant), or absence. -/
inductive BSResult where
  | Complete (lower upper : Nat)
  | Part (lower upper : Nat)
  | Absent
  deriving Repr, DecidableEq

/-- Embeds `SeedHit` from `src/index.rs`. -/
structure SeedHit where
  reference_offset : Nat
  query_offset : Nat
  deriving Repr, DecidableEq

/-- Mutable state of the seed-harvest loop in `MGIndex::matching_tax_ids`
(`src/index.rs`): accumulated seed hits, count of used seeds, the next admissible seed
offset, and the current (adaptively doubled) seed interval. -/
structure HarvestState where
  bin_locations : List SeedHit
  n_seeds : Nat
  next_offset : Nat
  seed_interval : Nat
  deriving Repr, DecidableEq

/-- Embeds one iteration of the seed-harvest loop of `MGIndex::matching_tax_ids`
(`src/index.rs`, the `for (offset, seed) in seeds` body). `search` models the FM-index
backward search for the seed starting at a given offset, and `occof lower upper` models
`Interval::occ` on the sampled suffix array (external rust-bio calls). Exactly as in the
source, `interval_upper` and `interval_lower` are assigned only in the `Complete` branch
of the match on the search result. -/
def harvestStep (search : Nat → BSResult) (occof : Nat → Nat → List Nat)
    (max_hits tune_max_hits : Nat) (st : HarvestState) (offset : Nat) : HarvestState :=
  if offset < st.next_offset then st
  else
    let res := search offset
    let interval_upper := match res with | .Complete _ u => u | _ => 0
    let interval_lower := match res with | .Complete l _ => l | _ => 0
    let positions := match res with
      | .Complete l u => (l, u)
      | .Part l u => (l, u)
      | .Absent => (0, 0)
    if interval_upper = 0 ∧ interval_lower = 0 then st
    else
      let n_hits := interval_upper - interval_lower
      if n_hits > max_hits then st
      else
        let st1 := if n_hits > tune_max_hits then
            { st with seed_interval := st.seed_interval * 2,
                      next_offset := offset + st.seed_interval * 2 }
          else st
        { st1 with
            bin_locations := st1.bin_locations ++
              (occof positions.1 positions.2).map (fun i => ⟨i, offset⟩),
            n_seeds := st1.n_seeds + 1 }

/-- Claim C2 (divergence): whenever the backward search returns the partial-result
variant, the harvest loop of `MGIndex::matching_tax_ids` leaves its state unchanged —
no `SeedHit` is ever emitted from such an interval, because `interval_upper` and
`interval_lower` are still `0` and the empty-interval skip fires. The claim (and
§4.2.1 of the spec) says the interval is used as-is. -/
theorem part_result_emits_no_seed_hits (search : Nat → BSResult)
    (occof : Nat → Nat → List Nat) (max_hits tune_max_hits : Nat)
    (st : HarvestState) (offset l u : Nat)
    (h : search offset = BSResult.Part l u) :
    harvestStep search occof max_hits tune_max_hits st offset = st := by
  unfold harvestStep
  rw [h]
  simp

/-- Closed instantiation of `part_result_emits_no_seed_hits`: a partial result with the
nonempty suffix-array interval `[3, 7)` — whose four entries the claim says become
`SeedHit`s — contributes nothing. -/
theorem part_result_emits_no_seed_hits_witness :
    harvestStep (fun _ => BSResult.Part 3 7)
      (fun l u => List.range (u - l) |>.map (fun i => l + i)) 2000 200
      ⟨[], 0, 0, 15⟩ 0 = ⟨[], 0, 0, 15⟩ :=
  part_result_emits_no_seed_hits _ _ 2000 200 ⟨[], 0, 0, 15⟩ 0 3 7 rfl

/-- Embeds `Hit` from `src/index.rs`. -/
structure Hit where
  tax_id : Nat
  gi : Nat
  offset : Nat
  edit : Nat
  deriving Repr, DecidableEq

/-- Embeds the fields of `ReferenceCandidate` (`src/index.rs`) consumed by the phase-3
selection loop: the candidate window bounds, its bin's taxid, gi and start, and the seed
count. The candidate sequence itself is addressed through the scoring functions. -/
structure Candidate where
  tax_id : Nat
  gi : Nat
  bin_start : Nat
  reference_start : Nat
  reference_end_excl : Nat
  num_seeds : Nat
  deriving Repr, DecidableEq

/-- Embeds the phase-3 selection loop of `MGIndex::matching_tax_ids` (`src/index.rs`,
`for candidate in reference_candidates`): skip candidates whose taxid was already
matched, filter by the striped Smith-Waterman score (`swscore` models
`Profile::align_score`, with the source's wrapping `sequence.len() - edit_distance * 2`
threshold), then confirm by banded edit distance (`edits` models
`Aligner::min_edit_distance`); `matched` and `hits` are the loop's accumulators and the
hit offset is the saturating difference `reference_start - bin.start`. -/
def phase3Go (swscore edits : Candidate → Nat) (seq_len edit_distance : Nat) :
    List Candidate → List Nat → List Hit → List Hit
  | [], _, hits => hits
  | c :: rest, matched, hits =>
    if c.tax_id ∈ matched then phase3Go swscore edits seq_len edit_distance rest matched hits
    else if sub64 seq_len (edit_distance * 2) ≤ swscore c then
      if edits c ≤ edit_distance then
        phase3Go swscore edits seq_len edit_distance rest (c.tax_id :: matched)
          (hits ++ [⟨c.tax_id, c.gi, c.reference_start - c.bin_start, edits c⟩])
      else phase3Go swscore edits seq_len edit_distance rest matched hits
    else phase3Go swscore edits seq_len edit_distance rest matched hits

/-- Embeds the hit-collection phase of `MGIndex::matching_tax_ids` starting from the
empty `matches` and `hits` vectors. -/
def matching_hits (swscore edits : Candidate → Nat) (seq_len edit_distance : Nat)
    (cands : List Candidate) : List Hit :=
  phase3Go swscore edits seq_len edit_distance cands [] []

theorem phase3Go_taxid_nodup (swscore edits : Candidate → Nat) (L e : Nat)
    (cands : List Candidate) :
    ∀ (matched : List Nat) (hits : List Hit),
      (hits.map Hit.tax_id).Nodup →
      (∀ t ∈ hits.map Hit.tax_id, t ∈ matched) →
      ((phase3Go swscore edits L e cands matched hits).map Hit.tax_id).Nodup := by
  induction cands with
  | nil =>
    intro matched hits hnd _
    simpa only [phase3Go] using hnd
  | cons c rest ih =>
    intro matched hits hnd hsub
    simp only [phase3Go]
    by_cases h1 : c.tax_id ∈ matched
    · rw [if_pos h1]
      exact ih matched hits hnd hsub
    · rw [if_neg h1]
      by_cases h2 : sub64 L (e * 2) ≤ swscore c
      · rw [if_pos h2]
        by_cases h3 : edits c ≤ e
        · rw [if_pos h3]
          apply ih
          · rw [List.map_append]
            rw [List.nodup_append]
            refine ⟨hnd, List.nodup_singleton _, ?_⟩
            intro t ht
            simp only [List.map_cons, List.map_nil, List.mem_singleton]
            intro hts
            exact h1 (hts ▸ hsub t ht)
          · intro t ht
            rw [List.map_append] at ht
            rcases List.mem_append.mp ht with hl | hr
            · exact List.mem_cons_of_mem _ (hsub t hl)
            · simp only [List.map_cons, List.map_nil, List.mem_singleton] at hr
              exact hr ▸ List.mem_cons_self _ _
        · rw [if_neg h3]
          exact ih matched hits hnd hsub
      · rw [if_neg h2]
        exact ih matched hits hnd hsub

/-- Claim C9: a single call of `MGIndex::matching_tax_ids` returns at most one `Hit`
per taxid — the tax_id values of the returned hit vector are pairwise distinct, because
a candidate whose taxid was already accepted is skipped before alignment. -/
theorem matching_hits_taxids_distinct (swscore edits : Candidate → Nat)
    (seq_len edit_distance : Nat) (cands : List Candidate) :
    ((matching_hits swscore edits seq_len edit_distance cands).map Hit.tax_id).Nodup :=
  phase3Go_taxid_nodup swscore edits seq_len edit_distance cands [] []
    List.nodup_nil (by intro t ht; cases ht)

/-- Modelled from the spec: an optional early-termination limit fires once the counter
has reached it (`None` never fires). -/
def limitStop : Option Nat → Nat → Bool
  | some k, n => decide (k ≤ n)
  | none, _ => false

/-- Modelled from the spec: the phase-3 loop of `MGIndex::matching_tax_ids` extended
with the two optional early-termination controls `max_candidates_checked` (stop phase-3
edit-distance checks after that many candidates have been checked) and
`max_assignments` (stop after that many accepted hits). The variant of
`matching_tax_ids` accepting these two arguments is missing from `src/src/index.rs`
although `src/binner.rs` passes both; apart from the two limit guards and the check
counter the body is the loop embedded in `phase3Go`. Returns the hit vector and the
number of edit-distance checks performed. -/
def selectGo (swscore edits : Candidate → Nat) (seq_len edit_distance : Nat)
    (maxCand maxAssign : Option Nat) :
    List Candidate → List Nat → List Hit → Nat → List Hit × Nat
  | [], _, hits, checked => (hits, checked)
  | c :: rest, matched, hits, checked =>
    if limitStop maxAssign hits.length then (hits, checked)
    else if c.tax_id ∈ matched then
      selectGo swscore edits seq_len edit_distance maxCand maxAssign rest matched hits checked
    else if sub64 seq_len (edit_distance * 2) ≤ swscore c then
      if limitStop maxCand checked then (hits, checked)
      else if edits c ≤ edit_distance then
        selectGo swscore edits seq_len edit_distance maxCand maxAssign rest
          (c.tax_id :: matched)
          (hits ++ [⟨c.tax_id, c.gi, c.reference_start - c.bin_start, edits c⟩])
          (checked + 1)
      else
        selectGo swscore edits seq_len edit_distance maxCand maxAssign rest matched hits
          (checked + 1)
    else
      selectGo swscore edits seq_len edit_distance maxCand maxAssign rest matched hits checked

/-- Modelled from the spec: `matching_tax_ids` with early-termination controls, from
empty accumulators. -/
def selectHits (swscore edits : Candidate → Nat) (seq_len edit_distance : Nat)
    (maxCand maxAssign : Option Nat) (cands : List Candidate) : List Hit × Nat :=
  selectGo swscore edits seq_len edit_distance maxCand maxAssign cands [] [] 0

theorem selectGo_assign_bound (swscore edits : Candidate → Nat) (L e : Nat)
    (maxCand : Option Nat) (K2 : Nat) (cands : List Candidate) :
    ∀ (matched : List Nat) (hits : List Hit) (checked : Nat),
      (selectGo swscore edits L e maxCand (some K2) cands matched hits checked).1.length ≤
        max K2 hits.length := by
  induction cands with
  | nil =>
    intro matched hits checked
    simp only [selectGo]
    omega
  | cons c rest ih =>
    intro matched hits checked
    simp only [selectGo]
    by_cases hstop : limitStop (some K2) hits.length = true
    · rw [if_pos hstop]
      simp
    · rw [if_neg hstop]
      have hlen : hits.length < K2 := by
        simp only [limitStop, decide_eq_true_eq] at hstop
        omega
      by_cases h1 : c.tax_id ∈ matched
      · rw [if_pos h1]
        exact ih matched hits checked
      · rw [if_neg h1]
        by_cases h2 : sub64 L (e * 2) ≤ swscore c
        · rw [if_pos h2]
          by_cases hc : limitStop maxCand checked = true
          · rw [if_pos hc]
            simp
          · rw [if_neg hc]
            by_cases h3 : edits c ≤ e
            · rw [if_pos h3]
              have := ih (c.tax_id :: matched)
                (hits ++ [⟨c.tax_id, c.gi, c.reference_start - c.bin_start, edits c⟩])
                (checked + 1)
              simp only [List.length_append, List.length_singleton] at this
              omega
            · rw [if_neg h3]
              exact ih matched hits (checked + 1)
        · rw [if_neg h2]
          exact ih matched hits checked

theorem selectGo_check_bound (swscore edits : Candidate → Nat) (L e : Nat)
    (maxAssign : Option Nat) (K1 : Nat) (cands : List Candidate) :
    ∀ (matched : List Nat) (hits : List Hit) (checked : Nat),
      (selectGo swscore edits L e (some K1) maxAssign cands matched hits checked).2 ≤
        max K1 checked := by
  induction cands with
  | nil =>
    intro matched hits checked
    simp only [selectGo]
    omega
  | cons c rest ih =>
    intro matched hits checked
    simp only [selectGo]
    by_cases hstop : limitStop maxAssign hits.length = true
    · rw [if_pos hstop]
      omega
    · rw [if_neg hstop]
      by_cases h1 : c.tax_id ∈ matched
      · rw [if_pos h1]
        exact ih matched hits checked
      · rw [if_neg h1]
        by_cases h2 : sub64 L (e * 2) ≤ swscore c
        · rw [if_pos h2]
          by_cases hc : limitStop (some K1) checked = true
          · rw [if_pos hc]
            omega
          · rw [if_neg hc]
            have hchk : checked < K1 := by
              simp only [limitStop, decide_eq_true_eq] at hc
              omega
            by_cases h3 : edits c ≤ e
            · rw [if_pos h3]
              have := ih (c.tax_id :: matched)
                (hits ++ [⟨c.tax_id, c.gi, c.reference_start - c.bin_start, edits c⟩])
                (checked + 1)
              omega
            · rw [if_neg h3]
              have := ih matched hits (checked + 1)
              omega
        · rw [if_neg h2]
          exact ih matched hits checked

theorem phase3Go_accumulates (swscore edits : Candidate → Nat) (L e : Nat)
    (cands : List Candidate) :
    ∀ (matched : List Nat) (hits : List Hit),
      ∃ extra, phase3Go swscore edits L e cands matched hits = hits ++ extra := by
  induction cands with
  | nil =>
    intro matched hits
    exact ⟨[], by simp [phase3Go]⟩
  | cons c rest ih =>
    intro matched hits
    simp only [phase3Go]
    by_cases h1 : c.tax_id ∈ matched
    · rw [if_pos h1]
      exact ih matched hits
    · rw [if_neg h1]
      by_cases h2 : sub64 L (e * 2) ≤ swscore c
      · rw [if_pos h2]
        by_cases h3 : edits c ≤ e
        · rw [if_pos h3]
          obtain ⟨extra, hx⟩ := ih (c.tax_id :: matched)
            (hits ++ [⟨c.tax_id, c.gi, c.reference_start - c.bin_start, edits c⟩])
          refine ⟨⟨c.tax_id, c.gi, c.reference_start - c.bin_start, edits c⟩ :: extra, ?_⟩
          rw [hx]
          simp
        · rw [if_neg h3]
          exact ih matched hits
      · rw [if_neg h2]
        exact ih matched hits

theorem selectGo_prefix_of_phase3 (swscore edits : Candidate → Nat) (L e : Nat)
    (maxCand maxAssign : Option Nat) (cands : List Candidate) :
    ∀ (matched : List Nat) (hits : List Hit) (checked : Nat),
      ∃ extra, phase3Go swscore edits L e cands matched hits =
        (selectGo swscore edits L e maxCand maxAssign cands matched hits checked).1 ++
          extra := by
  induction cands with
  | nil =>
    intro matched hits checked
    exact ⟨[], by simp [phase3Go, selectGo]⟩
  | cons c rest ih =>
    intro matched hits checked
    by_cases hstop : limitStop maxAssign hits.length = true
    · have hsel : selectGo swscore edits L e maxCand maxAssign (c :: rest) matched hits
          checked = (hits, checked) := by
        simp only [selectGo]
        rw [if_pos hstop]
      rw [hsel]
      exact phase3Go_accumulates swscore edits L e (c :: rest) matched hits
    · by_cases h1 : c.tax_id ∈ matched
      · have hsel : selectGo swscore edits L e maxCand maxAssign (c :: rest) matched hits
            checked = selectGo swscore edits L e maxCand maxAssign rest matched hits
              checked := by
          simp only [selectGo]
          rw [if_neg hstop, if_pos h1]
        have hph : phase3Go swscore edits L e (c :: rest) matched hits =
            phase3Go swscore edits L e rest matched hits := by
          simp only [phase3Go]
          rw [if_pos h1]
        rw [hsel, hph]
        exact ih matched hits checked
      · by_cases h2 : sub64 L (e * 2) ≤ swscore c
        · by_cases hc : limitStop maxCand checked = true
          · have hsel : selectGo swscore edits L e maxCand maxAssign (c :: rest) matched
                hits checked = (hits, checked) := by
              simp only [selectGo]
              rw [if_neg hstop, if_neg h1, if_pos h2, if_pos hc]
            rw [hsel]
            exact phase3Go_accumulates swscore edits L e (c :: rest) matched hits
          · by_cases h3 : edits c ≤ e
            · have hsel : selectGo swscore edits L e maxCand maxAssign (c :: rest) matched
                  hits checked = selectGo swscore edits L e maxCand maxAssign rest
                    (c.tax_id :: matched)
                    (hits ++ [⟨c.tax_id, c.gi, c.reference_start - c.bin_start, edits c⟩])
                    (checked + 1) := by
                simp only [selectGo]
                rw [if_neg hstop, if_neg h1, if_pos h2, if_neg hc, if_pos h3]
              have hph : phase3Go swscore edits L e (c :: rest) matched hits =
                  phase3Go swscore edits L e rest (c.tax_id :: matched)
                    (hits ++ [⟨c.tax_id, c.gi, c.reference_start - c.bin_start, edits c⟩]) := by
                simp only [phase3Go]
                rw [if_neg h1, if_pos h2, if_pos h3]
              rw [hsel, hph]
              exact ih (c.tax_id :: matched)
                (hits ++ [⟨c.tax_id, c.gi, c.reference_start - c.bin_start, edits c⟩])
                (checked + 1)
            · have hsel : selectGo swscore edits L e maxCand maxAssign (c :: rest) matched
                  hits checked = selectGo swscore edits L e maxCand maxAssign rest matched
                    hits (checked + 1) := by
                simp only [selectGo]
                rw [if_neg hstop, if_neg h1, if_pos h2, if_neg hc, if_neg h3]
              have hph : phase3Go swscore edits L e (c :: rest) matched hits =
                  phase3Go swscore edits L e rest matched hits := by
                simp only [phase3Go]
                rw [if_neg h1, if_pos h2, if_neg h3]
              rw [hsel, hph]
              exact ih matched hits (checked + 1)
        · have hsel : selectGo swscore edits L e maxCand maxAssign (c :: rest) matched hits
              checked = selectGo swscore edits L e maxCand maxAssign rest matched hits
                checked := by
            simp only [selectGo]
            rw [if_neg hstop, if_neg h1, if_neg h2]
          have hph : phase3Go swscore edits L e (c :: rest) matched hits =
              phase3Go swscore edits L e rest matched hits := by
            simp only [phase3Go]
            rw [if_neg h1, if_neg h2]
          rw [hsel, hph]
          exact ih matched hits checked

/-- Claim C1: with `max_candidates_checked = some K1` and/or `max_assignments = some K2`
set, the limited phase-3 loop accepts at most `K2` hits, performs at most `K1`
edit-distance checks, and its hit vector is an initial segment of the unlimited loop's —
candidates beyond the limits contribute no hits. -/
theorem early_termination_limits (swscore edits : Candidate → Nat)
    (seq_len edit_distance : Nat) (maxCand maxAssign : Option Nat)
    (cands : List Candidate) :
    (∀ K2, maxAssign = some K2 →
      (selectHits swscore edits seq_len edit_distance maxCand maxAssign cands).1.length ≤ K2) ∧
    (∀ K1, maxCand = some K1 →
      (selectHits swscore edits seq_len edit_distance maxCand maxAssign cands).2 ≤ K1) ∧
    (∃ extra, matching_hits swscore edits seq_len edit_distance cands =
      (selectHits swscore edits seq_len edit_distance maxCand maxAssign cands).1 ++ extra) := by
  refine ⟨?_, ?_, ?_⟩
  · intro K2 hK
    subst hK
    have := selectGo_assign_bound swscore edits seq_len edit_distance maxCand K2 cands [] [] 0
    simpa [selectHits] using this
  · intro K1 hK
    subst hK
    have := selectGo_check_bound swscore edits seq_len edit_distance maxAssign K1 cands [] [] 0
    simpa [selectHits] using this
  · exact selectGo_prefix_of_phase3 swscore edits seq_len edit_distance maxCand maxAssign
      cands [] [] 0

/-- Closed instantiation of `early_termination_limits`: with `max_assignments = 1` over
two accepting candidates of different taxids, at most one hit is accepted. -/
theorem early_termination_limits_witness :
    (selectHits (fun _ => 10) (fun _ => 0) 10 0 none (some 1)
      [⟨1, 5, 0, 0, 10, 1⟩, ⟨2, 6, 0, 0, 10, 1⟩]).1.length ≤ 1 :=
  (early_termination_limits (fun _ => 10) (fun _ => 0) 10 0 none (some 1)
    [⟨1, 5, 0, 0, 10, 1⟩, ⟨2, 6, 0, 0, 10, 1⟩]).1 1 rfl

/-- Embeds the `best.entry(key).and_modify(min).or_insert(edit)` update used both by
`write_assignments` (`src/binner.rs`) and by the taxid-mode accumulation of
`collapse_sorted_files` (`src/collapse.rs`); the hash map is modelled as an association
list with unique keys. -/
def insertMinEdit : List (Nat × Nat) → Nat → Nat → List (Nat × Nat)
  | [], t, e => [(t, e)]
  | (t0, e0) :: rest, t, e =>
    if t0 = t then (t0, if e < e0 then e else e0) :: rest
    else (t0, e0) :: insertMinEdit rest t e

/-- Embeds the per-taxid minimum map built by the default branch of
`write_assignments` (`src/binner.rs`). -/
def bestPerTaxid (hits : List Hit) : List (Nat × Nat) :=
  hits.foldl (fun m h => insertMinEdit m h.tax_id h.edit) []

/-- Embeds the `(taxid, edit)` comparator `a.0.cmp(&b.0).then(a.1.cmp(&b.1))` used by
`write_assignments` (`src/binner.rs`) and `write_collapsed_taxid` (`src/collapse.rs`). -/
def pairLe (a b : Nat × Nat) : Bool :=
  if a.1 < b.1 then true else if b.1 < a.1 then false else decide (a.2 ≤ b.2)

/-- Stable insertion step for `sortPairs`. -/
def insertPair (p : Nat × Nat) : List (Nat × Nat) → List (Nat × Nat)
  | [] => [p]
  | q :: rest => if pairLe p q then p :: q :: rest else q :: insertPair p rest

/-- Embeds the deterministic `items.sort_by` on `(taxid, edit)` pairs shared by
`write_assignments` and `write_collapsed_taxid` (stable insertion sort). -/
def sortPairs (l : List (Nat × Nat)) : List (Nat × Nat) := l.foldr insertPair []

/-- Embeds the default-mode body of `write_assignments` (`src/binner.rs`): the emitted
line is represented by its sorted list of `TAX=EDIT` entries, `none` models the early
return that writes no line for an empty hit slice. -/
def write_assignments_default (hits : List Hit) : Option (List (Nat × Nat)) :=
  if hits.isEmpty then none
  else some (sortPairs (bestPerTaxid hits))

/-- Pointwise minimum on optional values (the branch keeping the smaller edit matches
the source's `if hit.edit < *entry` update). -/
def combineMin : Option Nat → Option Nat → Option Nat
  | none, b => b
  | some a, none => some a
  | some a, some b => some (if a ≤ b then a else b)

/-- Reference minimum: the smallest edit over the hits carrying a given taxid, `none`
when the taxid never occurs. -/
def minEdit? : List Hit → Nat → Option Nat
  | [], _ => none
  | h :: rest, t =>
    if h.tax_id = t then combineMin (some h.edit) (minEdit? rest t)
    else minEdit? rest t

/-- First association in the modelled hash map. -/
def lookupTax : List (Nat × Nat) → Nat → Option Nat
  | [], _ => none
  | (t0, e0) :: rest, t => if t0 = t then some e0 else lookupTax rest t



theorem insertMinEdit_keys (m : List (Nat × Nat)) (t e : Nat) :
    (insertMinEdit m t e).map Prod.fst =
      if t ∈ m.map Prod.fst then m.map Prod.fst else m.map Prod.fst ++ [t] := by
  induction m with
  | nil => simp [insertMinEdit]
  | cons q rest ih =>
    obtain ⟨t0, e0⟩ := q
    simp only [insertMinEdit]
    by_cases h : t0 = t
    · subst h
      simp
    · rw [if_neg h]
      simp only [List.map_cons, List.mem_cons]
      rw [ih]
      by_cases hmem : t ∈ rest.map Prod.fst
      · rw [if_pos hmem, if_pos (Or.inr hmem)]
      · rw [if_neg hmem, if_neg (by
          intro hc
          rcases hc with hc | hc
          · exact h hc.symm
          · exact hmem hc)]
        simp

theorem insertMinEdit_keys_nodup (m : List (Nat × Nat)) (t e : Nat)
    (hnd : (m.map Prod.fst).Nodup) : ((insertMinEdit m t e).map Prod.fst).Nodup := by
  rw [insertMinEdit_keys]
  by_cases hmem : t ∈ m.map Prod.fst
  · rw [if_pos hmem]
    exact hnd
  · rw [if_neg hmem]
    rw [List.nodup_append]
    exact ⟨hnd, List.nodup_singleton _, by
      intro x hx
      simp only [List.mem_singleton]
      intro hxt
      exact hmem (hxt ▸ hx)⟩

theorem insertMinEdit_lookup (m : List (Nat × Nat)) (t e t2 : Nat) :
    lookupTax (insertMinEdit m t e) t2 =
      if t2 = t then combineMin (some e) (lookupTax m t) else lookupTax m t2 := by
  induction m with
  | nil =>
    by_cases h : t2 = t
    · subst h
      simp [insertMinEdit, lookupTax, combineMin]
    · have h' : ¬t = t2 := fun hc => h hc.symm
      simp [insertMinEdit, lookupTax, h, h']
  | cons q rest ih =>
    obtain ⟨t0, e0⟩ := q
    by_cases h0 : t0 = t
    · subst h0
      by_cases h2 : t2 = t0
      · subst h2
        simp [insertMinEdit, lookupTax, combineMin]
        split_ifs <;> omega
      · have h2' : ¬t0 = t2 := fun hc => h2 hc.symm
        simp [insertMinEdit, lookupTax, h2, h2']
    · by_cases h2 : t0 = t2
      · subst h2
        simp [insertMinEdit, lookupTax, h0]
      · simp [insertMinEdit, lookupTax, h0, h2, ih]

theorem combineMin_left_assoc (a b c : Option Nat) :
    combineMin (combineMin a b) c = combineMin b (combineMin a c) := by
  cases a <;> cases b <;> cases c <;> simp only [combineMin] <;>
    first
      | rfl
      | (congr 1
         split_ifs <;> omega)

theorem bestPerTaxid_go_lookup (hits : List Hit) :
    ∀ (m : List (Nat × Nat)) (t : Nat),
      lookupTax (hits.foldl (fun m h => insertMinEdit m h.tax_id h.edit) m) t =
        combineMin (lookupTax m t) (minEdit? hits t) := by
  induction hits with
  | nil =>
    intro m t
    simp only [List.foldl_nil, minEdit?]
    cases lookupTax m t <;> rfl
  | cons h hs ih =>
    intro m t
    simp only [List.foldl_cons]
    rw [ih]
    rw [insertMinEdit_lookup]
    simp only [minEdit?]
    by_cases ht : h.tax_id = t
    · rw [if_pos ht.symm, if_pos ht, ht]
      exact combineMin_left_assoc (some h.edit) (lookupTax m t) (minEdit? hs t)
    · rw [if_neg (fun hc : t = h.tax_id => ht hc.symm), if_neg ht]

theorem bestPerTaxid_lookup (hits : List Hit) (t : Nat) :
    lookupTax (bestPerTaxid hits) t = minEdit? hits t := by
  have := bestPerTaxid_go_lookup hits [] t
  simpa [bestPerTaxid, lookupTax, combineMin] using this

theorem bestPerTaxid_keys_nodup (hits : List Hit) :
    ((bestPerTaxid hits).map Prod.fst).Nodup := by
  have hgen : ∀ (m : List (Nat × Nat)), (m.map Prod.fst).Nodup →
      (((hits.foldl (fun m h => insertMinEdit m h.tax_id h.edit) m)).map Prod.fst).Nodup := by
    induction hits with
    | nil => intro m hm; simpa using hm
    | cons h hs ih =>
      intro m hm
      simp only [List.foldl_cons]
      exact ih _ (insertMinEdit_keys_nodup m h.tax_id h.edit hm)
  simpa [bestPerTaxid] using hgen [] (by simp)

theorem lookupTax_of_mem {m : List (Nat × Nat)} (hnd : (m.map Prod.fst).Nodup)
    {t e : Nat} (hm : (t, e) ∈ m) : lookupTax m t = some e := by
  induction m with
  | nil => cases hm
  | cons q rest ih =>
    obtain ⟨t0, e0⟩ := q
    simp only [List.map_cons, List.nodup_cons] at hnd
    rcases List.mem_cons.mp hm with hq | hq
    · injection hq with h1 h2
      subst h1
      subst h2
      simp [lookupTax]
    · simp only [lookupTax]
      by_cases h0 : t0 = t
      · exfalso
        subst h0
        exact hnd.1 (by
          have : (t0, e) ∈ rest := hq
          exact List.mem_map_of_mem Prod.fst this)
      · rw [if_neg h0]
        exact ih hnd.2 hq

theorem mem_keys_of_lookup {m : List (Nat × Nat)} {t e : Nat}
    (h : lookupTax m t = some e) : t ∈ m.map Prod.fst := by
  induction m with
  | nil => cases h
  | cons q rest ih =>
    obtain ⟨t0, e0⟩ := q
    simp only [lookupTax] at h
    by_cases h0 : t0 = t
    · simp [h0]
    · rw [if_neg h0] at h
      simp only [List.map_cons, List.mem_cons]
      exact Or.inr (ih h)

theorem minEdit?_isSome_of_mem {hits : List Hit} {h : Hit} (hm : h ∈ hits) :
    ∃ e, minEdit? hits h.tax_id = some e := by
  induction hits with
  | nil => cases hm
  | cons h0 rest ih =>
    simp only [minEdit?]
    rcases List.mem_cons.mp hm with hq | hq
    · subst hq
      rw [if_pos rfl]
      cases minEdit? rest h.tax_id <;> exact ⟨_, rfl⟩
    · by_cases ht : h0.tax_id = h.tax_id
      · rw [if_pos ht]
        cases minEdit? rest h.tax_id <;> exact ⟨_, rfl⟩
      · rw [if_neg ht]
        exact ih hq

theorem insertPair_perm (p : Nat × Nat) (l : List (Nat × Nat)) :
    List.Perm (insertPair p l) (p :: l) := by
  induction l with
  | nil => exact List.Perm.refl _
  | cons q rest ih =>
    simp only [insertPair]
    by_cases h : pairLe p q = true
    · rw [if_pos h]
    · rw [if_neg h]
      exact (ih.cons q).trans (List.Perm.swap p q rest)

theorem sortPairs_perm (l : List (Nat × Nat)) : List.Perm (sortPairs l) l := by
  induction l with
  | nil => exact List.Perm.refl _
  | cons q rest ih =>
    simp only [sortPairs, List.foldr_cons]
    exact (insertPair_perm q _).trans (ih.cons q)

/-- Claim C8: in default output mode `write_assignments` emits at most one `TAX=EDIT`
entry per taxid (the entry taxids are pairwise distinct), the `EDIT` recorded for each
taxid is the minimum edit over all hits with that taxid, every hit's taxid appears, and
an empty hit list produces no line. -/
theorem write_assignments_min_per_taxid (hits : List Hit) :
    write_assignments_default [] = none ∧
    ∀ entries, write_assignments_default hits = some entries →
      ((entries.map Prod.fst).Nodup ∧
       (∀ p ∈ entries, minEdit? hits p.1 = some p.2) ∧
       (∀ h ∈ hits, h.tax_id ∈ entries.map Prod.fst)) := by
  refine ⟨rfl, ?_⟩
  intro entries hsome
  simp only [write_assignments_default] at hsome
  by_cases hemp : hits.isEmpty
  · rw [if_pos hemp] at hsome
    exact Option.noConfusion hsome
  · rw [if_neg hemp] at hsome
    have hE : entries = sortPairs (bestPerTaxid hits) := (Option.some.inj hsome).symm
    subst hE
    have hperm : List.Perm (sortPairs (bestPerTaxid hits)) (bestPerTaxid hits) :=
      sortPairs_perm _
    have hkeys : List.Perm ((sortPairs (bestPerTaxid hits)).map Prod.fst)
        ((bestPerTaxid hits).map Prod.fst) := hperm.map _
    refine ⟨?_, ?_, ?_⟩
    · exact hkeys.nodup_iff.mpr (bestPerTaxid_keys_nodup hits)
    · intro p hp
      obtain ⟨t, e⟩ := p
      have hpb : (t, e) ∈ bestPerTaxid hits := hperm.mem_iff.mp hp
      have := lookupTax_of_mem (bestPerTaxid_keys_nodup hits) hpb
      rw [bestPerTaxid_lookup] at this
      exact this
    · intro h hh
      obtain ⟨e, he⟩ := minEdit?_isSome_of_mem hh
      have hl : lookupTax (bestPerTaxid hits) h.tax_id = some e := by
        rw [bestPerTaxid_lookup]
        exact he
      exact hkeys.mem_iff.mpr (mem_keys_of_lookup hl)

/-- Closed instantiation of `write_assignments_min_per_taxid` at the hit list of the
repository's own `assignments_default_output` test: taxid 2 is recorded with its
minimum edit 4. -/
theorem write_assignments_min_per_taxid_witness :
    minEdit? [⟨2, 10, 3, 7⟩, ⟨2, 11, 8, 4⟩, ⟨5, 12, 1, 9⟩] 2 = some 4 :=
  ((write_assignments_min_per_taxid [⟨2, 10, 3, 7⟩, ⟨2, 11, 8, 4⟩, ⟨5, 12, 1, 9⟩]).2
    [(2, 4), (5, 9)] rfl).2.1 (2, 4) (by decide)

/-- Minimum with an `if`, as Rust's `Ord::min` on `u32` values. -/
def natMin (a b : Nat) : Nat := if a ≤ b then a else b

/-- Embeds `values().min().unwrap_or(0)` from the collapse delta filters
(`src/collapse.rs`). -/
def minVals : List Nat → Nat
  | [] => 0
  | v :: vs => vs.foldl natMin v

/-- Embeds `u32::saturating_add` as used for the delta-filter cutoff. -/
def satAdd32 (a b : Nat) : Nat := if a + b ≤ 2 ^ 32 - 1 then a + b else 2 ^ 32 - 1

/-- Embeds `filter_taxid_hits` from `src/collapse.rs`: on a non-empty per-taxid map,
drop entries whose edit exceeds `min_edit.saturating_add(edit_delta)`. -/
def filter_taxid_hits (hits : List (Nat × Nat)) (edit_delta : Nat) : List (Nat × Nat) :=
  if hits = [] then hits
  else
    let min_edit := minVals (hits.map Prod.snd)
    let cutoff := satAdd32 min_edit edit_delta
    hits.filter (fun p => decide (p.2 ≤ cutoff))

/-- Embeds `filter_taxid_gi_hits` from `src/collapse.rs`: keys are `(taxid, gi)` pairs,
values are `(edit, offset)` pairs and the filter reads the edit component. -/
def filter_taxid_gi_hits (hits : List ((Nat × Nat) × (Nat × Nat))) (edit_delta : Nat) :
    List ((Nat × Nat) × (Nat × Nat)) :=
  if hits = [] then hits
  else
    let min_edit := minVals (hits.map (fun p => p.2.1))
    let cutoff := satAdd32 min_edit edit_delta
    hits.filter (fun p => decide (p.2.1 ≤ cutoff))

theorem foldl_natMin_mem (vs : List Nat) : ∀ v : Nat, vs.foldl natMin v ∈ v :: vs := by
  induction vs with
  | nil => intro v; simp
  | cons w ws ih =>
    intro v
    simp only [List.foldl_cons]
    rcases List.mem_cons.mp (ih (natMin v w)) with h | h
    · rw [h]
      unfold natMin
      split_ifs <;> simp
    · exact List.mem_cons_of_mem _ (List.mem_cons_of_mem _ h)

theorem foldl_natMin_le (vs : List Nat) : ∀ v x : Nat, x ∈ v :: vs →
    vs.foldl natMin v ≤ x := by
  induction vs with
  | nil =>
    intro v x hx
    simp only [List.mem_singleton] at hx
    subst hx
    simp
  | cons w ws ih =>
    intro v x hx
    simp only [List.foldl_cons]
    have hminv : natMin v w ≤ v := by unfold natMin; split_ifs <;> omega
    have hminw : natMin v w ≤ w := by unfold natMin; split_ifs <;> omega
    have hhead : ws.foldl natMin (natMin v w) ≤ natMin v w :=
      ih (natMin v w) (natMin v w) (List.mem_cons_self _ _)
    rcases List.mem_cons.mp hx with h | h
    · subst h
      exact le_trans hhead hminv
    · rcases List.mem_cons.mp h with h2 | h2
      · subst h2
        exact le_trans hhead hminw
      · exact ih (natMin v w) x (List.mem_cons_of_mem _ h2)

theorem minVals_mem {l : List Nat} (h : l ≠ []) : minVals l ∈ l := by
  cases l with
  | nil => exact absurd rfl h
  | cons v vs => exact foldl_natMin_mem vs v

theorem minVals_le {l : List Nat} {x : Nat} (hx : x ∈ l) : minVals l ≤ x := by
  cases l with
  | nil => cases hx
  | cons v vs => exact foldl_natMin_le vs v x hx

theorem filter_cutoff_spec {α : Type} (f : α → Nat) (l : List α) (cutoff : Nat)
    (hcut : minVals (l.map f) ≤ cutoff) (hne : l ≠ []) :
    (∀ x ∈ l, f x = minVals (l.map f) → x ∈ l.filter (fun x => decide (f x ≤ cutoff))) ∧
    l.filter (fun x => decide (f x ≤ cutoff)) ≠ [] ∧
    minVals ((l.filter (fun x => decide (f x ≤ cutoff))).map f) = minVals (l.map f) := by
  have hmap : l.map f ≠ [] := by
    cases l with
    | nil => exact absurd rfl hne
    | cons a as => simp
  obtain ⟨x0, hx0, hfx0⟩ := List.mem_map.mp (minVals_mem hmap)
  have hkeep : ∀ x ∈ l, f x = minVals (l.map f) →
      x ∈ l.filter (fun x => decide (f x ≤ cutoff)) := by
    intro x hx hfx
    refine List.mem_filter.mpr ⟨hx, ?_⟩
    rw [decide_eq_true_eq, hfx]
    exact hcut
  have hx0f : x0 ∈ l.filter (fun x => decide (f x ≤ cutoff)) := hkeep x0 hx0 hfx0
  refine ⟨hkeep, ?_, ?_⟩
  · intro hcon
    rw [hcon] at hx0f
    cases hx0f
  · have hle : minVals ((l.filter (fun x => decide (f x ≤ cutoff))).map f) ≤
        minVals (l.map f) := by
      have : minVals (l.map f) ∈ (l.filter (fun x => decide (f x ≤ cutoff))).map f := by
        rw [← hfx0]
        exact List.mem_map_of_mem f hx0f
      exact minVals_le this
    have hge : minVals (l.map f) ≤
        minVals ((l.filter (fun x => decide (f x ≤ cutoff))).map f) := by
      have hfne : (l.filter (fun x => decide (f x ≤ cutoff))).map f ≠ [] := by
        intro hcon
        rw [List.map_eq_nil_iff] at hcon
        rw [hcon] at hx0f
        cases hx0f
      obtain ⟨y, hy, hfy⟩ := List.mem_map.mp (minVals_mem hfne)
      rw [← hfy]
      exact minVals_le (List.mem_map_of_mem f (List.mem_of_mem_filter hy))
    omega

/-- Claim C10: on a non-empty reducer map the collapse delta filter keeps every entry
whose edit equals the minimum (the saturating cutoff is at least the minimum), so the
filtered map is non-empty and its minimum edit is unchanged; this holds for both
`filter_taxid_hits` and `filter_taxid_gi_hits`. -/
theorem delta_filter_keeps_min (hits : List (Nat × Nat))
    (ghits : List ((Nat × Nat) × (Nat × Nat))) (edit_delta : Nat)
    (hne : hits ≠ []) (hb : ∀ p ∈ hits, p.2 ≤ 2 ^ 32 - 1)
    (gne : ghits ≠ []) (gb : ∀ p ∈ ghits, p.2.1 ≤ 2 ^ 32 - 1) :
    (minVals (hits.map Prod.snd) ≤ satAdd32 (minVals (hits.map Prod.snd)) edit_delta) ∧
    (∀ p ∈ hits, p.2 = minVals (hits.map Prod.snd) →
      p ∈ filter_taxid_hits hits edit_delta) ∧
    filter_taxid_hits hits edit_delta ≠ [] ∧
    minVals ((filter_taxid_hits hits edit_delta).map Prod.snd) =
      minVals (hits.map Prod.snd) ∧
    (∀ p ∈ ghits, p.2.1 = minVals (ghits.map (fun x => x.2.1)) →
      p ∈ filter_taxid_gi_hits ghits edit_delta) ∧
    filter_taxid_gi_hits ghits edit_delta ≠ [] ∧
    minVals ((filter_taxid_gi_hits ghits edit_delta).map (fun x => x.2.1)) =
      minVals (ghits.map (fun x => x.2.1)) := by
  have hmapne : hits.map Prod.snd ≠ [] := by
    cases hits with
    | nil => exact absurd rfl hne
    | cons a as => simp
  have gmapne : ghits.map (fun x => x.2.1) ≠ [] := by
    cases ghits with
    | nil => exact absurd rfl gne
    | cons a as => simp
  have hmnb : minVals (hits.map Prod.snd) ≤ 2 ^ 32 - 1 := by
    obtain ⟨p, hp, hfp⟩ := List.mem_map.mp (minVals_mem hmapne)
    rw [← hfp]
    exact hb p hp
  have gmnb : minVals (ghits.map (fun x => x.2.1)) ≤ 2 ^ 32 - 1 := by
    obtain ⟨p, hp, hfp⟩ := List.mem_map.mp (minVals_mem gmapne)
    rw [← hfp]
    exact gb p hp
  have hcut : minVals (hits.map Prod.snd) ≤
      satAdd32 (minVals (hits.map Prod.snd)) edit_delta := by
    unfold satAdd32
    split_ifs <;> omega
  have gcut : minVals (ghits.map (fun x => x.2.1)) ≤
      satAdd32 (minVals (ghits.map (fun x => x.2.1))) edit_delta := by
    unfold satAdd32
    split_ifs <;> omega
  have hfe : filter_taxid_hits hits edit_delta =
      hits.filter (fun p => decide (p.2 ≤
        satAdd32 (minVals (hits.map Prod.snd)) edit_delta)) := by
    unfold filter_taxid_hits
    rw [if_neg hne]
  have gfe : filter_taxid_gi_hits ghits edit_delta =
      ghits.filter (fun p => decide (p.2.1 ≤
        satAdd32 (minVals (ghits.map (fun x => x.2.1))) edit_delta)) := by
    unfold filter_taxid_gi_hits
    rw [if_neg gne]
  obtain ⟨hk, hne2, hmin⟩ := filter_cutoff_spec Prod.snd hits
    (satAdd32 (minVals (hits.map Prod.snd)) edit_delta) hcut hne
  obtain ⟨gk, gne2, gmin⟩ := filter_cutoff_spec (fun x => x.2.1) ghits
    (satAdd32 (minVals (ghits.map (fun x => x.2.1))) edit_delta) gcut gne
  rw [hfe, gfe]
  exact ⟨hcut, hk, hne2, hmin, gk, gne2, gmin⟩

/-- Closed instantiation of `delta_filter_keeps_min` at the maps `{1 ↦ 2, 2 ↦ 9}` and
`{(1,1) ↦ (2,0)}` with `edit_delta = 0`: the filtered taxid map is non-empty. -/
theorem delta_filter_keeps_min_witness :
    filter_taxid_hits [(1, 2), (2, 9)] 0 ≠ [] :=
  (delta_filter_keeps_min [(1, 2), (2, 9)] [((1, 1), (2, 0))] 0 (by decide) (by decide)
    (by decide) (by decide)).2.2.1

/-- Embeds the taxid-mode reduction of one read in `collapse_sorted_files`
(`src/collapse.rs`): the parsed hit lists of each line popped for one read id
accumulate into the per-taxid minimum map, the edit-delta filter runs at the flush, and
`write_collapsed_taxid` emits the entries sorted by `(taxid, edit)`. -/
def collapse_taxid_record (hitLists : List (List (Nat × Nat))) (edit_delta : Nat) :
    List (Nat × Nat) :=
  let m := hitLists.foldl (fun m l => l.foldl (fun m p => insertMinEdit m p.1 p.2) m) []
  sortPairs (filter_taxid_hits m edit_delta)

/-- Claim C4 (divergence): collapsing the lines `r1:1=5,2=9` and `r1:1=2,2=10` in taxid
mode with `edit_delta = 0` accumulates the per-taxid minima `{1 ↦ 2, 2 ↦ 9}`, but the
delta filter (cutoff `min_edit + 0 = 2`) then drops `2=9`, so the emitted line is
`r1:1=2` — not `r1:1=2,2=9` as the claim, spec scenario S6 and the repository's own
`collapse_edit_distances_min_edit` test expect. -/
theorem collapse_s6_delta_zero_output :
    sortPairs ([[(1, 5), (2, 9)], [(1, 2), (2, 10)]].foldl
      (fun m l => l.foldl (fun m p => insertMinEdit m p.1 p.2) m) []) = [(1, 2), (2, 9)] ∧
    collapse_taxid_record [[(1, 5), (2, 9)], [(1, 2), (2, 10)]] 0 = [(1, 2)] :=
  ⟨rfl, rfl⟩

/-- Embeds the byte case-fold of `MGIndex::new` ("convert whole reference sequence to
DNA5 alphabet", `src/index.rs`): `A`/`C`/`G`/`T`/`N` stay, lowercase `acgt` map to
uppercase, everything else becomes `N`; bytes are ASCII codes. -/
def foldBase (b : Nat) : Nat :=
  if b = 65 ∨ b = 67 ∨ b = 71 ∨ b = 84 ∨ b = 78 then b
  else if b = 97 then 65
  else if b = 99 then 67
  else if b = 103 then 71
  else if b = 116 then 84
  else 78

/-- ASCII lowercasing of a byte, modelling the lowercasing of a reference database in
the build case-insensitivity property. -/
def lowerByte (b : Nat) : Nat := if 65 ≤ b ∧ b ≤ 90 then b + 32 else b

/-- A reference database as consumed by `MGIndex::new` (`src/index.rs`): the BTreeMap
iteration, in ascending taxid order, as a list of `(taxid, references)` pairs, each
reference a `(gi, sequence)` pair. -/
abbrev Database := List (Nat × List (Nat × List Nat))

/-- Embeds the inner concatenation loop of `MGIndex::new`: append the references of one
taxid to the corpus accumulator, recording a `Bin` per reference. -/
def addRefs (tax : Nat) : List (Nat × List Nat) → List Nat × List Bin → List Nat × List Bin
  | [], st => st
  | (gi, r) :: rest, (s, bs) =>
    addRefs tax rest (s ++ r, bs ++ [⟨gi, tax, s.length, s.length + r.length⟩])

/-- Embeds the outer concatenation loop of `MGIndex::new`. -/
def concatAll : Database → List Nat × List Bin → List Nat × List Bin
  | [], st => st
  | (tax, refs) :: rest, st => concatAll rest (addRefs tax refs st)

/-- Embeds the corpus built by `MGIndex::new`: concatenation, case-fold, sentinel `$`
(ASCII 36). -/
def corpusOf (db : Database) : List Nat :=
  ((concatAll db ([], [])).1.map foldBase) ++ [36]

/-- Embeds the bin table recorded by `MGIndex::new`. -/
def binsOf (db : Database) : List Bin := (concatAll db ([], [])).2

/-- Lexicographic order on byte lists (Bool-valued). -/
def lexLe : List Nat → List Nat → Bool
  | [], _ => true
  | _ :: _, [] => false
  | a :: as, b :: bs => if a < b then true else if b < a then false else lexLe as bs

/-- Insertion step of the deterministic sort used below. -/
def insertLe {α : Type} (le : α → α → Bool) (x : α) : List α → List α
  | [] => [x]
  | y :: ys => if le x y then x :: y :: ys else y :: insertLe le x ys

/-- Deterministic insertion sort. -/
def sortLe {α : Type} (le : α → α → Bool) (l : List α) : List α := l.foldr (insertLe le) []

/-- Models `bio::data_structures::suffix_array::suffix_array` as a deterministic
function of the corpus: the suffix start positions sorted lexicographically. -/
def suffix_array (seq : List Nat) : List Nat :=
  sortLe (fun i j => lexLe (seq.drop i) (seq.drop j)) (List.range seq.length)

/-- Models `bio::data_structures::bwt::bwt`: `BWT[i] = seq[(sa[i] + n - 1) mod n]`. -/
def bwtOf (seq sa : List Nat) : List Nat :=
  sa.map (fun p => seq.getD ((p + seq.length - 1) % seq.length) 0)

/-- Models the `less` cumulative-count table: for each of the 256 symbols, the count of
corpus symbols strictly smaller. -/
def lessOf (seq : List Nat) : List Nat :=
  (List.range 256).map (fun c => (seq.filter (fun b => decide (b < c))).length)

/-- Models the sampled occurrence table `Occ::new(bwt, k, alphabet)`: per symbol, the
prefix counts at every `k`-th position. -/
def occOf (bwt : List Nat) (k : Nat) : List (List Nat) :=
  (List.range 256).map (fun c =>
    (List.range (bwt.length / k + 1)).map (fun i =>
      ((bwt.take (i * k)).filter (fun b => decide (b = c))).length))

/-- Models `sa.sample(...)`: every `k`-th suffix-array entry. -/
def sampledOf (sa : List Nat) (k : Nat) : List Nat :=
  (sa.enum.filter (fun p => decide (p.1 % k = 0))).map Prod.snd

/-- Embeds `MGIndex` (`src/index.rs`): concatenated corpus, bins, and the FM-index
bundle (BWT, less, sampled Occ, sampled suffix array) built from the corpus. -/
structure MGIndexL where
  sequences : List Nat
  bins : List Bin
  bwt : List Nat
  less : List Nat
  occ : List (List Nat)
  sampled_sa : List Nat
  deriving Repr, DecidableEq

/-- Embeds `MGIndex::new` (`src/index.rs`): concatenate and bin the references in
BTreeMap order, case-fold to the DNA5 alphabet, append the sentinel `$`, then derive
the suffix array, BWT, `less`, sampled Occ and sampled suffix array from the corpus. -/
def MGIndex_new (db : Database) (sample_interval suffix_sample : Nat) : MGIndexL :=
  let seq := corpusOf db
  let sa := suffix_array seq
  let b := bwtOf seq sa
  { sequences := seq
    bins := binsOf db
    bwt := b
    less := lessOf seq
    occ := occOf b sample_interval
    sampled_sa := sampledOf sa suffix_sample }

/-- Lowercases every sequence byte of a database. -/
def lowerDB (db : Database) : Database :=
  db.map (fun p => (p.1, p.2.map (fun q => (q.1, q.2.map lowerByte))))

theorem foldBase_lowerByte (b : Nat) : foldBase (lowerByte b) = foldBase b := by
  by_cases h : 65 ≤ b ∧ b ≤ 90
  · obtain ⟨h1, h2⟩ := h
    interval_cases b <;> decide
  · unfold lowerByte
    rw [if_neg h]

theorem addRefs_lower (tax : Nat) (refs : List (Nat × List Nat)) :
    ∀ (s : List Nat) (bs : List Bin),
      addRefs tax (refs.map (fun q => (q.1, q.2.map lowerByte))) (s.map lowerByte, bs) =
        ((addRefs tax refs (s, bs)).1.map lowerByte, (addRefs tax refs (s, bs)).2) := by
  induction refs with
  | nil => intro s bs; rfl
  | cons q rest ih =>
    obtain ⟨gi, r⟩ := q
    intro s bs
    simp only [List.map_cons, addRefs]
    rw [← List.map_append, List.length_map, List.length_map]
    exact ih (s ++ r) (bs ++ [⟨gi, tax, s.length, s.length + r.length⟩])

theorem concatAll_lower (db : Database) :
    ∀ (s : List Nat) (bs : List Bin),
      concatAll (lowerDB db) (s.map lowerByte, bs) =
        ((concatAll db (s, bs)).1.map lowerByte, (concatAll db (s, bs)).2) := by
  induction db with
  | nil => intro s bs; rfl
  | cons p rest ih =>
    obtain ⟨tax, refs⟩ := p
    intro s bs
    simp only [lowerDB, List.map_cons, concatAll]
    rw [addRefs_lower]
    have := ih (addRefs tax refs (s, bs)).1 (addRefs tax refs (s, bs)).2
    simp only [lowerDB] at this
    exact this

theorem corpusOf_lower (db : Database) : corpusOf (lowerDB db) = corpusOf db := by
  unfold corpusOf
  have h := concatAll_lower db [] []
  simp only [List.map_nil] at h
  rw [h]
  congr 1
  rw [List.map_map]
  exact List.map_congr_left (fun b _ => foldBase_lowerByte b)

theorem binsOf_lower (db : Database) : binsOf (lowerDB db) = binsOf db := by
  unfold binsOf
  have h := concatAll_lower db [] []
  simp only [List.map_nil] at h
  rw [h]

/-- Claim C6: building the index over a database and over the same database with every
sequence lowercased yields byte-for-byte identical indexes: identical case-folded corpus
with sentinel, identical bins, and identical BWT / suffix-array structures. -/
theorem build_case_insensitive (db : Database) (sample_interval suffix_sample : Nat) :
    MGIndex_new (lowerDB db) sample_interval suffix_sample =
      MGIndex_new db sample_interval suffix_sample := by
  unfold MGIndex_new
  rw [corpusOf_lower, binsOf_lower]

/-- Little-endian 8-byte encoding of a `u64` value. -/
def u64le (n : Nat) : List Nat :=
  [n % 256, n / 2 ^ 8 % 256, n / 2 ^ 16 % 256, n / 2 ^ 24 % 256,
   n / 2 ^ 32 % 256, n / 2 ^ 40 % 256, n / 2 ^ 48 % 256, n / 2 ^ 56 % 256]

/-- Models the head of the index file written by `write_to_file` (`src/io.rs`) for a
built `MGIndex` (`build_and_write_index`, `src/builder.rs`): bincode's default
fixed-int little-endian serialization starts with the leading `sequences: Vec<u8>`
field, a u64 length prefix followed by the raw corpus bytes; no magic or version field
is written. -/
def writeIndexHead (ind : MGIndexL) : List Nat :=
  u64le ind.sequences.length ++ ind.sequences

/-- ASCII bytes of the `MTSV` magic that §6 of the spec expects at the head of an
index file. -/
def mtsvMagic : List Nat := [77, 84, 83, 86]

/-- Total reference length of a database. -/
def totalRefLen (db : Database) : Nat :=
  (db.map (fun p => (p.2.map (fun q => q.2.length)).sum)).sum

theorem addRefs_len (tax : Nat) (refs : List (Nat × List Nat)) :
    ∀ (s : List Nat) (bs : List Bin),
      (addRefs tax refs (s, bs)).1.length =
        s.length + (refs.map (fun q => q.2.length)).sum := by
  induction refs with
  | nil => intro s bs; simp [addRefs]
  | cons q rest ih =>
    obtain ⟨gi, r⟩ := q
    intro s bs
    simp only [addRefs, List.map_cons, List.sum_cons]
    rw [ih]
    rw [List.length_append]
    omega

theorem concatAll_len (db : Database) :
    ∀ (s : List Nat) (bs : List Bin),
      (concatAll db (s, bs)).1.length = s.length + totalRefLen db := by
  induction db with
  | nil => intro s bs; simp [concatAll, totalRefLen]
  | cons p rest ih =>
    obtain ⟨tax, refs⟩ := p
    intro s bs
    simp only [concatAll]
    have h1 := ih (addRefs tax refs (s, bs)).1 (addRefs tax refs (s, bs)).2
    have h2 := addRefs_len tax refs s bs
    simp only [totalRefLen, List.map_cons, List.sum_cons]
    have h3 : (concatAll rest (addRefs tax refs (s, bs))).1.length =
        (addRefs tax refs (s, bs)).1.length + totalRefLen rest := h1
    rw [h3, h2]
    simp only [totalRefLen]
    omega

theorem corpusOf_len (db : Database) : (corpusOf db).length = totalRefLen db + 1 := by
  unfold corpusOf
  rw [List.length_append, List.length_map]
  have h := concatAll_len db [] []
  simp only [List.length_nil, Nat.zero_add] at h
  rw [h]
  rfl

/-- Claim C3 (amended): the index file written for a built index begins with the
little-endian u64 byte length of the case-folded corpus (total reference length plus
one sentinel byte), followed by the corpus itself — a bincode vector prefix, not a
magic/version header. -/
theorem index_serialization_layout (db : Database) (k s : Nat) :
    (writeIndexHead (MGIndex_new db k s)).take 8 = u64le (totalRefLen db + 1) ∧
    (writeIndexHead (MGIndex_new db k s)).drop 8 = corpusOf db := by
  have hseq : (MGIndex_new db k s).sequences = corpusOf db := rfl
  have hu : (u64le ((corpusOf db).length)).length = 8 := rfl
  unfold writeIndexHead
  rw [hseq]
  constructor
  · rw [List.take_left' hu, corpusOf_len]
  · rw [List.drop_left' hu]

/-- Claim C3 counterexample: the index built over the database `{9 ↦ [(1, "ACGT")]}`
serializes to a file whose first four bytes are `[5, 0, 0, 0]` (little-endian corpus
length 5), not the `MTSV` magic bytes. -/
theorem index_file_head_not_magic :
    (writeIndexHead (MGIndex_new [(9, [(1, [65, 67, 71, 84])])] 32 64)).take 4 =
      [5, 0, 0, 0] ∧ ([5, 0, 0, 0] : List Nat) ≠ mtsvMagic := by
  exact ⟨rfl, by decide⟩

/-- Embeds the scan of `resume_offset_from_results` (`src/bin/mtsv-binner.rs`):
enumerate the input records, remembering the index of the last record whose id occurs
in the harvested id set. -/
def lastMatchIdx {α : Type} [DecidableEq α] (ids : List α) :
    List α → Nat → Option Nat → Option Nat
  | [], _, acc => acc
  | r :: rs, i, acc => lastMatchIdx ids rs (i + 1) (if r ∈ ids then some i else acc)

/-- Embeds `resume_offset_from_results` (`src/bin/mtsv-binner.rs`):
`last_idx.map(|i| i + 1).unwrap_or(0)` over the scan of the input records against the
read ids harvested from the results file. -/
def resume_offset_from_results {α : Type} [DecidableEq α] (ids records : List α) : Nat :=
  match lastMatchIdx ids records 0 none with
  | some i => i + 1
  | none => 0

/-- Embeds the resume wiring of `main` (`src/bin/mtsv-binner.rs`): `append_results` is
`!force_overwrite && results_path.exists()`, the resume offset is `0` under
`--force-overwrite` or a missing results file and otherwise comes from
`resume_offset_from_results`, and the user-supplied `--read-offset` is added to it.
Returns the effective read offset and the append flag passed to the binner. -/
def binnerReadOffset {α : Type} [DecidableEq α] (force_overwrite results_exists : Bool)
    (user_read_offset : Nat) (ids records : List α) : Nat × Bool :=
  let append_results := !force_overwrite && results_exists
  let resume := if force_overwrite then 0
    else if results_exists then resume_offset_from_results ids records else 0
  (user_read_offset + resume, append_results)

theorem lastMatchIdx_shift {α : Type} [DecidableEq α] (ids : List α) (records : List α) :
    ∀ (i : Nat) (acc : Option Nat),
      lastMatchIdx ids records i acc =
        match lastMatchIdx ids records 0 none with
        | some m => some (i + m)
        | none => acc := by
  induction records with
  | nil => intro i acc; rfl
  | cons r rs ih =>
    intro i acc
    simp only [lastMatchIdx]
    rw [ih (i + 1), ih 1]
    cases h : lastMatchIdx ids rs 0 none with
    | some m =>
      simp only []
      congr 1
      omega
    | none =>
      by_cases hr : r ∈ ids <;> simp [hr]

theorem resume_offset_spec {α : Type} [DecidableEq α] (ids records : List α) :
    (resume_offset_from_results ids records ≠ 0 →
      ∃ r, records.get? (resume_offset_from_results ids records - 1) = some r ∧
        r ∈ ids) ∧
    (∀ j r, records.get? j = some r → r ∈ ids →
      j < resume_offset_from_results ids records) := by
  induction records with
  | nil =>
    constructor
    · intro h
      exact absurd rfl h
    · intro j r hj
      cases hj
  | cons r rs ih =>
    have hstep : lastMatchIdx ids (r :: rs) 0 none =
        match lastMatchIdx ids rs 0 none with
        | some m => some (1 + m)
        | none => if r ∈ ids then some 0 else none := by
      simp only [lastMatchIdx]
      rw [lastMatchIdx_shift ids rs 1]
    cases h0 : lastMatchIdx ids rs 0 none with
    | some m =>
      have hn : resume_offset_from_results ids (r :: rs) = m + 2 := by
        simp only [resume_offset_from_results, hstep, h0]
        omega
      have hnrs : resume_offset_from_results ids rs = m + 1 := by
        simp only [resume_offset_from_results, h0]
      constructor
      · intro _
        rw [hn]
        obtain ⟨x, hx, hxm⟩ := ih.1 (by omega : resume_offset_from_results ids rs ≠ 0)
        rw [hnrs] at hx
        refine ⟨x, ?_, hxm⟩
        simpa using hx
      · intro j r2 hj hr2
        rw [hn]
        cases j with
        | zero => omega
        | succ j2 =>
          have := ih.2 j2 r2 (by simpa using hj) hr2
          omega
    | none =>
      have hn : resume_offset_from_results ids (r :: rs) =
          if r ∈ ids then 1 else 0 := by
        by_cases hr : r ∈ ids <;>
          simp only [resume_offset_from_results, hstep, h0, hr, if_true, if_false]
      have hnrs : resume_offset_from_results ids rs = 0 := by
        simp only [resume_offset_from_results, h0]
      constructor
      · intro hnz
        rw [hn] at hnz ⊢
        by_cases hr : r ∈ ids
        · rw [if_pos hr]
          exact ⟨r, by simp, hr⟩
        · rw [if_neg hr] at hnz
          exact absurd rfl hnz
      · intro j r2 hj hr2
        cases j with
        | zero =>
          have hrr : r = r2 := by simpa using hj
          subst hrr
          rw [hn, if_pos hr2]
          omega
        | succ j2 =>
          exfalso
          have := ih.2 j2 r2 (by simpa using hj) hr2
          omega

/-- Claim C7: when the results file exists and `--force-overwrite` is not given, the
binner opens the output in append mode and starts at `user --read-offset` plus the
computed resume offset; that resume offset is `last_index + 1` where `last_index` is
the index of the last input record whose id occurs in the harvested id set (`0` when no
id matches): every matching index is below it and, when nonzero, the record just before
it matches. -/
theorem resume_wiring {α : Type} [DecidableEq α] (ids records : List α)
    (user_read_offset : Nat) :
    binnerReadOffset false true user_read_offset ids records =
      (user_read_offset + resume_offset_from_results ids records, true) ∧
    (resume_offset_from_results ids records ≠ 0 →
      ∃ r, records.get? (resume_offset_from_results ids records - 1) = some r ∧
        r ∈ ids) ∧
    (∀ j r, records.get? j = some r → r ∈ ids →
      j < resume_offset_from_results ids records) :=
  ⟨rfl, (resume_offset_spec ids records).1, (resume_offset_spec ids records).2⟩

/-- Closed instantiation of `resume_wiring`: ids `{2}` over records `[1, 2, 3]` give
resume offset `2`; with `--read-offset 5` the binner starts at `7` in append mode. -/
theorem resume_wiring_witness :
    binnerReadOffset false true 5 [2] ([1, 2, 3] : List Nat) = (7, true) :=
  (resume_wiring [2] [1, 2, 3] 5).1

end Mtsv
